import Mathlib

/-!
Shallow embedding of `src/main.rs` of the rust-ratatui-guid-converter
repository, together with proofs about the claims of its specification.

A Rust `String`/`&str` is modelled as a `List Nat` of Unicode scalar
values (one `Nat` per `char`).  Byte-level operations of the source
(`str::len`, byte slicing `&s[a..b]`) are modelled through an explicit
UTF-8 encoding (`utf8Len`, `utf8Encode`, `isCharBoundary`).  Fallible
code returns `Option`; the possibility of a `panic!` (out of a byte
slice not on a char boundary) is modelled by `Except Unit`.
-/

/-- Number of bytes of the UTF-8 encoding of the scalar value `c`. -/
def utf8CharLen (c : Nat) : Nat :=
  if c < 128 then 1 else if c < 2048 then 2 else if c < 65536 then 3 else 4

/-- Byte length of a string, as Rust's `str::len` returns it. -/
def utf8Len (s : List Nat) : Nat :=
  (s.map utf8CharLen).sum

/-- The UTF-8 bytes of one scalar value. -/
def utf8EncodeChar (c : Nat) : List Nat :=
  if c < 128 then [c]
  else if c < 2048 then [192 + c / 64, 128 + c % 64]
  else if c < 65536 then [224 + c / 4096, 128 + (c / 64) % 64, 128 + c % 64]
  else [240 + c / 262144, 128 + (c / 4096) % 64, 128 + (c / 64) % 64, 128 + c % 64]

/-- The UTF-8 byte sequence of a string, as Rust's `str::as_bytes`. -/
def utf8Encode (s : List Nat) : List Nat :=
  s.flatMap utf8EncodeChar

/-- `isCharBoundary s i` holds when byte position `i` of the UTF-8
encoding of `s` lies on a character boundary (Rust's
`str::is_char_boundary`, the condition under which `&s[a..b]` does not
panic). -/
def isCharBoundary : List Nat → Nat → Bool
  | _, 0 => true
  | [], _ + 1 => false
  | c :: cs, i + 1 =>
    if i + 1 < utf8CharLen c then false else isCharBoundary cs (i + 1 - utf8CharLen c)

/-- The scalar values of a Lean string literal, used to transcribe the
string literals of the source. -/
def strLit (s : String) : List Nat :=
  s.toList.map Char.toNat

/-- Unicode `White_Space` property, Rust's `char::is_whitespace`. -/
def isRustWhitespace (c : Nat) : Bool :=
  c = 9 || c = 10 || c = 11 || c = 12 || c = 13 || c = 32 ||
  c = 133 || c = 160 || c = 5760 || (8192 ≤ c && c ≤ 8202) ||
  c = 8232 || c = 8233 || c = 8239 || c = 8287 || c = 12288

/-- Rust's `str::trim`: drop whitespace characters from both ends. -/
def rustTrim (s : List Nat) : List Nat :=
  ((s.dropWhile isRustWhitespace).reverse.dropWhile isRustWhitespace).reverse

/-- Rust's `char::is_ascii_hexdigit` (`0-9`, `a-f`, `A-F`), on a scalar
value; it is also the per-byte digit test of `from_str_radix` at radix
16 (`char::to_digit 16`). -/
def isAsciiHexdigitN (c : Nat) : Bool :=
  (48 ≤ c && c ≤ 57) || (97 ≤ c && c ≤ 102) || (65 ≤ c && c ≤ 70)

/-- Value of one hexadecimal digit byte, `char::to_digit 16`. -/
def hexDigitVal (b : Nat) : Option Nat :=
  if 48 ≤ b ∧ b ≤ 57 then some (b - 48)
  else if 97 ≤ b ∧ b ≤ 102 then some (b - 87)
  else if 65 ≤ b ∧ b ≤ 70 then some (b - 55)
  else none

/-- Digit-accumulation loop of `u8::from_str_radix` at radix 16: fold
the digits left to right, failing on a non-digit byte or on overflow
past `u8::MAX = 255`. -/
def digitsVal16 : List Nat → Nat → Option Nat
  | [], acc => some acc
  | b :: rest, acc =>
    match hexDigitVal b with
    | none => none
    | some d => if acc * 16 + d ≤ 255 then digitsVal16 rest (acc * 16 + d) else none

/-- `u8::from_str_radix(s, 16)` on the bytes of `s` (as `Option`).  Per
its documentation and implementation for an unsigned target type, an
optional leading `+` sign is accepted (a lone `+` is an error, and `-`
is not admitted as a sign for `u8`, so it fails as a non-digit). -/
def fromStrRadix16u8 (bs : List Nat) : Option Nat :=
  match bs with
  | [] => none
  | b :: rest =>
    if b = 43 then
      if rest = [] then none else digitsVal16 rest 0
    else digitsVal16 (b :: rest) 0

/-- The byte-reorder transform of `raw_hex_to_guid` / `guid_to_raw_hex`
(`src/main.rs` lines 144-151 and 159-166): reverse bytes `0..4`,
reverse bytes `4..6`, reverse bytes `6..8`, copy bytes `8..16`. -/
def reorder (b : List Nat) : List Nat :=
  (b.take 4).reverse ++ ((b.drop 4).take 2).reverse ++ ((b.drop 6).take 2).reverse ++ b.drop 8

/-- The iteration `(0..16).map(|i| u8::from_str_radix(&hex[i*2..i*2+2], 16).ok())
.collect::<Option<Vec<u8>>>()` of `raw_hex_to_guid`.  `s` is the string
(for the char-boundary check of the byte slice, whose failure is the
panic, `Except.error ()`), `bs` its bytes.  The iterator is lazy and
`collect` short-circuits: the first pair that fails to parse yields
`none` without touching later pairs. -/
def rawPairsLoop (s bs : List Nat) : Nat → Nat → Except Unit (Option (List Nat))
  | 0, _ => Except.ok (some [])
  | n + 1, i =>
    if isCharBoundary s (2 * i) && isCharBoundary s (2 * i + 2) then
      match fromStrRadix16u8 ((bs.drop (2 * i)).take 2) with
      | none => Except.ok none
      | some b =>
        match rawPairsLoop s bs n (i + 1) with
        | Except.error e => Except.error e
        | Except.ok none => Except.ok none
        | Except.ok (some rest) => Except.ok (some (b :: rest))
    else Except.error ()

/-- `App::raw_hex_to_guid` (`src/main.rs` lines 132-154).  Checks the
byte length, parses the 16 adjacent 2-byte slices, applies the reorder,
and wraps the result in `Uuid::from_bytes` (a `Uuid` is its 16 natural
bytes, here a `List Nat`).  `Except.error ()` is the panic of a byte
slice `&hex[i*2..i*2+2]` whose end is not a char boundary. -/
def rawHexToGuid (s : List Nat) : Except Unit (Option (List Nat)) :=
  if utf8Len s ≠ 32 then Except.ok none
  else
    match rawPairsLoop s (utf8Encode s) 16 0 with
    | Except.error e => Except.error e
    | Except.ok none => Except.ok none
    | Except.ok (some bytes) => Except.ok (some (reorder bytes))

/-- One byte as two uppercase hexadecimal scalar values,
`format!("{:02X}", b)` for `b < 256`. -/
def byteToHexUpper (b : Nat) : List Nat :=
  [if b / 16 < 10 then 48 + b / 16 else 55 + b / 16,
   if b % 16 < 10 then 48 + b % 16 else 55 + b % 16]

/-- One byte as two lowercase hexadecimal scalar values. -/
def byteToHexLower (b : Nat) : List Nat :=
  [if b / 16 < 10 then 48 + b / 16 else 87 + b / 16,
   if b % 16 < 10 then 48 + b % 16 else 87 + b % 16]

/-- `App::guid_to_raw_hex` (`src/main.rs` lines 156-169): reorder the
natural bytes of the `Uuid` and format them `{:02X}`. -/
def guidToRawHex (u : List Nat) : List Nat :=
  (reorder u).flatMap byteToHexUpper

/-- Lowercase hyphenated rendering of a `Uuid`, `uuid::Uuid`'s
`Display` (the `{}` of `format!("✅ GUID: {}", guid)`): groups of
4-2-2-2-6 bytes in lowercase hex separated by `-` (scalar 45). -/
def encodeHyphenated (u : List Nat) : List Nat :=
  (u.take 4).flatMap byteToHexLower ++ [45] ++
  ((u.drop 4).take 2).flatMap byteToHexLower ++ [45] ++
  ((u.drop 6).take 2).flatMap byteToHexLower ++ [45] ++
  ((u.drop 8).take 2).flatMap byteToHexLower ++ [45] ++
  (u.drop 10).flatMap byteToHexLower

/-- Parse a run of hexadecimal digit bytes pairwise into bytes; `none`
if a byte is not a hex digit or the run has odd length.  This is the
digit phase shared by `uuid`'s `parse_simple` / `parse_hyphenated`. -/
def hexPairs : List Nat → Option (List Nat)
  | [] => some []
  | b1 :: b2 :: rest =>
    match hexDigitVal b1, hexDigitVal b2, hexPairs rest with
    | some h, some l, some t => some ((16 * h + l) :: t)
    | _, _, _ => none
  | _ => none

/-- `uuid`'s `parse_simple`: 32 hexadecimal digit bytes. -/
def parseSimple (bs : List Nat) : Option (List Nat) :=
  if bs.length = 32 then hexPairs bs else none

/-- `uuid`'s `parse_hyphenated`: 36 bytes with `-` at byte positions
8, 13, 18, 23 and hexadecimal digits elsewhere. -/
def parseHyphenated (bs : List Nat) : Option (List Nat) :=
  if bs.length = 36 ∧ bs.getD 8 0 = 45 ∧ bs.getD 13 0 = 45 ∧
      bs.getD 18 0 = 45 ∧ bs.getD 23 0 = 45 then
    hexPairs (bs.take 8 ++ (bs.drop 9).take 4 ++ (bs.drop 14).take 4 ++
      (bs.drop 19).take 4 ++ bs.drop 24)
  else none

/-- `uuid::Uuid::parse_str` (`try_parse`): dispatch on the byte length
to the simple (32), hyphenated (36), braced (38) or URN (45) format. -/
def uuidParseStr (s : List Nat) : Option (List Nat) :=
  let bs := utf8Encode s
  if bs.length = 32 then parseSimple bs
  else if bs.length = 36 then parseHyphenated bs
  else if bs.length = 38 ∧ bs.getD 0 0 = 123 ∧ bs.getD 37 0 = 125 then
    parseHyphenated ((bs.drop 1).take 36)
  else if bs.length = 45 ∧ bs.take 9 = strLit "urn:uuid:" then
    parseHyphenated (bs.drop 9)
  else none

/-- `App::input_type_validation` (`src/main.rs` lines 171-180).  Note
that `trimmed_string.len()` is the byte length and that the hyphen
count and hex-digit test run over the characters. -/
def inputTypeValidation (s : List Nat) : List Nat :=
  let t := rustTrim s
  if utf8Len t = 36 ∧ t.count 45 = 4 then strLit "Guid"
  else if utf8Len t = 32 ∧ t.all isAsciiHexdigitN then strLit "RawHex"
  else strLit "None"

/-- The input mode of the UI (`enum InputMode`). -/
inductive InputMode where
  | Normal : InputMode
  | Editing : InputMode
deriving DecidableEq

/-- The application state (`struct App`): the input box content, the
cursor position in characters, the input mode and the message
history. -/
structure App where
  input : List Nat
  character_index : Nat
  input_mode : InputMode
  messages : List (List Nat)
deriving DecidableEq

/-- `App::new`. -/
def App.new : App :=
  { input := [], character_index := 0, input_mode := InputMode.Normal, messages := [] }

/-- `App::clamp_cursor`: clamp to `[0, input.chars().count()]`. -/
def clampCursor (a : App) (n : Nat) : Nat :=
  min n a.input.length

/-- `App::move_cursor_left` (`saturating_sub 1` then clamp). -/
def moveCursorLeft (a : App) : App :=
  { a with character_index := clampCursor a (a.character_index - 1) }

/-- `App::move_cursor_right` (`saturating_add 1` then clamp). -/
def moveCursorRight (a : App) : App :=
  { a with character_index := clampCursor a (a.character_index + 1) }

/-- `App::enter_char`: insert at `byte_index`, the byte offset of
character number `character_index` (or the end of the string when the
cursor is past the last character, `unwrap_or(input.len())`) — in
character terms, insertion before character `character_index`, with
`List.take` clamping past the end exactly as `unwrap_or` does — then
`move_cursor_right`. -/
def enterChar (a : App) (c : Nat) : App :=
  moveCursorRight
    { a with input := a.input.take a.character_index ++ c :: a.input.drop a.character_index }

/-- `App::delete_char`: when the cursor is not leftmost, keep the
characters before `character_index - 1` and from `character_index` on,
then `move_cursor_left`. -/
def deleteChar (a : App) : App :=
  if a.character_index ≠ 0 then
    moveCursorLeft
      { a with input := a.input.take (a.character_index - 1) ++ a.input.drop a.character_index }
  else a

/-- The result string computed by `App::submit_message`
(`src/main.rs` lines 98-124): classify the trimmed input, convert, and
render one status string.  `Except.error ()` is a panic escaping
`raw_hex_to_guid`. -/
def submitResultE (s : List Nat) : Except Unit (List Nat) :=
  let trimmed := rustTrim s
  let inputType := inputTypeValidation trimmed
  if inputType = strLit "Guid" then
    match uuidParseStr trimmed with
    | some uuid => Except.ok (strLit "✅ Raw Hex: " ++ guidToRawHex uuid)
    | none => Except.ok (strLit "❌ Invalid GUID")
  else if inputType = strLit "RawHex" then
    match rawHexToGuid trimmed with
    | Except.error e => Except.error e
    | Except.ok (some guid) => Except.ok (strLit "✅ GUID: " ++ encodeHyphenated guid)
    | Except.ok none => Except.ok (strLit "❌ Invalid Raw Hex.")
  else Except.ok (strLit "❌ Invalid input. It's neither raw hex nor guid.")

/-- `App::submit_message`: push the result, clear the input, reset the
cursor (`src/main.rs` lines 126-129). -/
def submitMessage (a : App) : Except Unit App :=
  match submitResultE a.input with
  | Except.error e => Except.error e
  | Except.ok result =>
    Except.ok { a with
      messages := a.messages ++ [result],
      input := [],
      character_index := 0 }

/-- The byte values of consecutive character pairs (the value
`raw_hex_to_guid` assembles when every character is a hex digit). -/
def pairsOf : List Nat → List Nat
  | c1 :: c2 :: rest =>
    (16 * (hexDigitVal c1).getD 0 + (hexDigitVal c2).getD 0) :: pairsOf rest
  | _ => []

/-- Rust's `char::to_ascii_uppercase` on a scalar value (the
specification's "uppercase form"). -/
def asciiToUpper (c : Nat) : Nat :=
  if 97 ≤ c ∧ c ≤ 122 then c - 32 else c

/-- Acceptance condition of the `i`-th two-character slice under
`u8::from_str_radix(_, 16)`, stated in the amended claim's words: two
hexadecimal digits, or a `+` sign followed by one hexadecimal digit. -/
def specPairAccepted (s : List Nat) (i : Nat) : Prop :=
  (isAsciiHexdigitN (s.getD (2 * i) 0) = true ∧ isAsciiHexdigitN (s.getD (2 * i + 1) 0) = true) ∨
  (s.getD (2 * i) 0 = 43 ∧ isAsciiHexdigitN (s.getD (2 * i + 1) 0) = true)

/-- The 32-byte, 31-character string `"aé" ++ 29 × "a"`: its byte 2
falls in the middle of the two-byte encoding of `é`, so the slice
`&hex[0..2]` of `raw_hex_to_guid` panics on it. -/
def panicInput : List Nat :=
  97 :: 233 :: List.replicate 29 97

/-- The 32-character ASCII string `"+0"` repeated 16 times: every pair
is `+0`, which is not a pair of hexadecimal digits, yet
`u8::from_str_radix` parses it (optional leading sign). -/
def plusInput : List Nat :=
  strLit "+0+0+0+0+0+0+0+0+0+0+0+0+0+0+0+0"

/-- The all-zero canonical string, used to witness the dispatch. -/
def guidZeroInput : List Nat :=
  strLit "00000000-0000-0000-0000-000000000000"

/-- The canonical string of the concrete case of the specification. -/
def canonicalConcrete : List Nat :=
  strLit "01020304-0506-0708-0910-111213141516"

/-- A concrete editing state: input `"a"`, cursor after it. -/
def sampleApp : App :=
  { input := [97], character_index := 1, input_mode := InputMode.Editing, messages := [] }

/-- Shared helper: the reorder transform undoes itself on 16-byte
sequences. -/
theorem reorder_reorder_eq (b : List Nat) (h : b.length = 16) :
    reorder (reorder b) = b := by
  rcases b with _ | ⟨a0, b⟩ <;> simp at h
  rcases b with _ | ⟨a1, b⟩ <;> simp at h
  rcases b with _ | ⟨a2, b⟩ <;> simp at h
  rcases b with _ | ⟨a3, b⟩ <;> simp at h
  rcases b with _ | ⟨a4, b⟩ <;> simp at h
  rcases b with _ | ⟨a5, b⟩ <;> simp at h
  rcases b with _ | ⟨a6, b⟩ <;> simp at h
  rcases b with _ | ⟨a7, b⟩ <;> simp at h
  rcases b with _ | ⟨a8, b⟩ <;> simp at h
  rcases b with _ | ⟨a9, b⟩ <;> simp at h
  rcases b with _ | ⟨a10, b⟩ <;> simp at h
  rcases b with _ | ⟨a11, b⟩ <;> simp at h
  rcases b with _ | ⟨a12, b⟩ <;> simp at h
  rcases b with _ | ⟨a13, b⟩ <;> simp at h
  rcases b with _ | ⟨a14, b⟩ <;> simp at h
  rcases b with _ | ⟨a15, b⟩ <;> simp at h
  subst h
  rfl

/-- C1: the byte-reorder transform (reverse bytes 0..4, reverse bytes
4..6, reverse bytes 6..8, copy bytes 8..16 unchanged) is an involution
on 16-byte sequences. -/
theorem reorder_involution (b : List Nat) (h : b.length = 16) :
    reorder (reorder b) = b :=
  reorder_reorder_eq b h

/-- Witness for C1 at a concrete 16-byte sequence. -/
theorem reorder_involution_witness :
    reorder (reorder [255, 1, 2, 3, 4, 5, 6, 7, 8, 9, 10, 11, 12, 13, 14, 16]) =
      [255, 1, 2, 3, 4, 5, 6, 7, 8, 9, 10, 11, 12, 13, 14, 16] :=
  reorder_involution _ (by decide)

/-! ### Basic facts about the character model -/

theorem hex_lt128 {c : Nat} (h : isAsciiHexdigitN c = true) : c < 128 := by
  simp only [isAsciiHexdigitN, Bool.or_eq_true, Bool.and_eq_true, decide_eq_true_eq] at h
  omega

theorem utf8CharLen_of_ascii {c : Nat} (h : c < 128) : utf8CharLen c = 1 := by
  simp [utf8CharLen, h]

theorem utf8Len_of_ascii {s : List Nat} (h : ∀ c ∈ s, c < 128) :
    utf8Len s = s.length := by
  induction s with
  | nil => rfl
  | cons c cs ih =>
    simp only [utf8Len, List.map_cons, List.sum_cons, List.length_cons]
    rw [utf8CharLen_of_ascii (h c (List.mem_cons_self c cs))]
    have := ih fun x hx => h x (List.mem_cons_of_mem c hx)
    simp only [utf8Len] at this
    omega

theorem utf8Encode_of_ascii {s : List Nat} (h : ∀ c ∈ s, c < 128) :
    utf8Encode s = s := by
  induction s with
  | nil => rfl
  | cons c cs ih =>
    simp only [utf8Encode, List.flatMap_cons]
    have hc : utf8EncodeChar c = [c] := by
      simp [utf8EncodeChar, h c (List.mem_cons_self c cs)]
    rw [hc]
    have := ih fun x hx => h x (List.mem_cons_of_mem c hx)
    simp only [utf8Encode] at this
    rw [this]
    rfl

theorem boundary_of_ascii {s : List Nat} (h : ∀ c ∈ s, c < 128) :
    ∀ i, i ≤ s.length → isCharBoundary s i = true := by
  induction s with
  | nil =>
    intro i hi
    have h0 : i = 0 := Nat.le_zero.mp hi
    subst h0
    rfl
  | cons c cs ih =>
    intro i hi
    cases i with
    | zero => rfl
    | succ j =>
      have hc : utf8CharLen c = 1 := utf8CharLen_of_ascii (h c (List.mem_cons_self c cs))
      simp only [isCharBoundary, hc]
      rw [if_neg (by omega)]
      exact ih (fun x hx => h x (List.mem_cons_of_mem c hx)) j (by simpa using hi)

/-! ### Facts about hexadecimal digits and `from_str_radix` -/

theorem hexDigitVal_lt {b h : Nat} (e : hexDigitVal b = some h) : h < 16 := by
  simp only [hexDigitVal] at e
  split at e <;> try split at e <;> try split at e
  all_goals simp_all <;> omega

theorem hexDigitVal_none_iff {b : Nat} :
    hexDigitVal b = none ↔ isAsciiHexdigitN b = false := by
  simp only [hexDigitVal, isAsciiHexdigitN, Bool.or_eq_false_iff, Bool.and_eq_false_iff]
  split <;> rename_i h1
  · simp; omega
  · split <;> rename_i h2
    · simp; omega
    · split <;> rename_i h3
      · simp; omega
      · simp; omega

theorem hexDigitVal_some_of_hex {b : Nat} (h : isAsciiHexdigitN b = true) :
    ∃ v, hexDigitVal b = some v ∧ v < 16 := by
  cases e : hexDigitVal b with
  | none => rw [hexDigitVal_none_iff.mp e] at h; cases h
  | some v => exact ⟨v, rfl, hexDigitVal_lt e⟩

theorem digits_one {c : Nat} : digitsVal16 [c] 0 = hexDigitVal c := by
  cases e : hexDigitVal c with
  | none => simp [digitsVal16, e]
  | some h =>
    have := hexDigitVal_lt e
    simp [digitsVal16, e]
    omega

theorem digits_two {c1 c2 h1 h2 : Nat} (e1 : hexDigitVal c1 = some h1)
    (e2 : hexDigitVal c2 = some h2) : digitsVal16 [c1, c2] 0 = some (16 * h1 + h2) := by
  have b1 := hexDigitVal_lt e1
  have b2 := hexDigitVal_lt e2
  simp only [digitsVal16, e1, e2]
  rw [if_pos (by omega), if_pos (by omega)]
  simp [digitsVal16]
  omega

theorem radix_pair_hex {c1 c2 h1 h2 : Nat} (e1 : hexDigitVal c1 = some h1)
    (e2 : hexDigitVal c2 = some h2) : fromStrRadix16u8 [c1, c2] = some (16 * h1 + h2) := by
  have hne : c1 ≠ 43 := by
    intro h
    rw [h] at e1
    simp [hexDigitVal] at e1
  simp only [fromStrRadix16u8, if_neg hne]
  exact digits_two e1 e2

/-- A two-character slice is accepted by `u8::from_str_radix(_, 16)`
exactly when it is two hexadecimal digits, or a `+` sign followed by
one hexadecimal digit.  (This is the deviation from the "pair of
hexadecimal digits" reading.) -/
theorem radix_pair_none_iff {c1 c2 : Nat} :
    fromStrRadix16u8 [c1, c2] = none ↔
      ¬ ((isAsciiHexdigitN c1 = true ∧ isAsciiHexdigitN c2 = true) ∨
         (c1 = 43 ∧ isAsciiHexdigitN c2 = true)) := by
  by_cases h43 : c1 = 43
  · subst h43
    simp only [fromStrRadix16u8, if_pos rfl]
    have hnot : isAsciiHexdigitN 43 = false := by decide
    cases e2 : hexDigitVal c2 with
    | none =>
      have := hexDigitVal_none_iff.mp e2
      simp [digits_one, e2, hnot, this]
    | some v =>
      have hhex : isAsciiHexdigitN c2 = true := by
        cases h : isAsciiHexdigitN c2
        · rw [hexDigitVal_none_iff.mpr h] at e2; cases e2
        · rfl
      simp [digits_one, e2, hnot, hhex]
  · simp only [fromStrRadix16u8, if_neg h43]
    cases e1 : hexDigitVal c1 with
    | none =>
      have h1 := hexDigitVal_none_iff.mp e1
      simp only [digitsVal16, e1]
      simp [h1, h43]
    | some v1 =>
      have h1 : isAsciiHexdigitN c1 = true := by
        cases h : isAsciiHexdigitN c1
        · rw [hexDigitVal_none_iff.mpr h] at e1; cases e1
        · rfl
      cases e2 : hexDigitVal c2 with
      | none =>
        have h2 := hexDigitVal_none_iff.mp e2
        have b1 := hexDigitVal_lt e1
        simp only [digitsVal16, e1, e2]
        rw [if_pos (by omega)]
        simp only [digitsVal16, e2]
        simp [h1, h2, h43]
      | some v2 =>
        have h2 : isAsciiHexdigitN c2 = true := by
          cases h : isAsciiHexdigitN c2
          · rw [hexDigitVal_none_iff.mpr h] at e2; cases e2
          · rfl
        rw [digits_two e1 e2]
        simp [h1, h2]

theorem radix_bound {bs : List Nat} {v : Nat} :
    ∀ acc, acc ≤ 255 → digitsVal16 bs acc = some v → v ≤ 255 := by
  induction bs with
  | nil =>
    intro acc ha e
    simp only [digitsVal16] at e
    injection e with h
    omega
  | cons b rest ih =>
    intro acc ha e
    simp only [digitsVal16] at e
    split at e
    · simp at e
    · split at e
      · rename_i d hd hle
        exact ih _ hle e
      · simp at e

/-! ### The pairwise parse of `raw_hex_to_guid` on all-hex input -/

theorem hexGetD_lt (c : Nat) : (hexDigitVal c).getD 0 < 16 := by
  cases e : hexDigitVal c with
  | none => simp
  | some v => simpa using hexDigitVal_lt e

theorem drop_take_pair : ∀ (k : Nat) (s : List Nat), k + 2 ≤ s.length →
    (s.drop k).take 2 = [s.getD k 0, s.getD (k + 1) 0] := by
  intro k
  induction k with
  | zero =>
    intro s hk
    match s, hk with
    | a :: b :: t, _ => simp
  | succ j ih =>
    intro s hk
    match s, hk with
    | a :: t, hk =>
      simp only [List.drop_succ_cons, List.getD_cons_succ]
      exact ih t (by simpa using hk)

theorem upperDigit_of_hexVal {c h : Nat} (e : hexDigitVal c = some h) :
    (if h < 10 then 48 + h else 55 + h) = asciiToUpper c := by
  simp only [hexDigitVal] at e
  split at e
  · injection e with he; subst he; simp only [asciiToUpper]; split_ifs <;> omega
  · split at e
    · injection e with he; subst he; simp only [asciiToUpper]; split_ifs <;> omega
    · split at e
      · injection e with he; subst he; simp only [asciiToUpper]; split_ifs <;> omega
      · cases e

theorem byteToHexUpper_pair {c1 c2 h1 h2 : Nat} (e1 : hexDigitVal c1 = some h1)
    (e2 : hexDigitVal c2 = some h2) :
    byteToHexUpper (16 * h1 + h2) = [asciiToUpper c1, asciiToUpper c2] := by
  have b1 := hexDigitVal_lt e1
  have b2 := hexDigitVal_lt e2
  have hd : (16 * h1 + h2) / 16 = h1 := by omega
  have hm : (16 * h1 + h2) % 16 = h2 := by omega
  simp only [byteToHexUpper, hd, hm, List.cons.injEq, and_true]
  exact ⟨upperDigit_of_hexVal e1, upperDigit_of_hexVal e2⟩

theorem pairsOf_length : ∀ (n : Nat) (l : List Nat), l.length = 2 * n →
    (pairsOf l).length = n := by
  intro n
  induction n with
  | zero =>
    intro l hl
    match l, hl with
    | [], _ => rfl
  | succ m ih =>
    intro l hl
    match l, hl with
    | c1 :: c2 :: rest, hl =>
      simp only [pairsOf, List.length_cons]
      rw [ih rest (by simp at hl; omega)]

theorem pairsOf_bound : ∀ (n : Nat) (l : List Nat), l.length = 2 * n →
    ∀ x ∈ pairsOf l, x ≤ 255 := by
  intro n
  induction n with
  | zero =>
    intro l hl
    match l, hl with
    | [], _ => simp [pairsOf]
  | succ m ih =>
    intro l hl
    match l, hl with
    | c1 :: c2 :: rest, hl =>
      intro x hx
      simp only [pairsOf, List.mem_cons] at hx
      rcases hx with rfl | hx
      · have := hexGetD_lt c1
        have := hexGetD_lt c2
        omega
      · exact ih rest (by simp at hl; omega) x hx

theorem pairsOf_flatMap_upper : ∀ (n : Nat) (l : List Nat), l.length = 2 * n →
    (∀ c ∈ l, isAsciiHexdigitN c = true) →
    (pairsOf l).flatMap byteToHexUpper = l.map asciiToUpper := by
  intro n
  induction n with
  | zero =>
    intro l hl _
    match l, hl with
    | [], _ => rfl
  | succ m ih =>
    intro l hl hhex
    match l, hl with
    | c1 :: c2 :: rest, hl =>
      obtain ⟨h1, e1, _⟩ := hexDigitVal_some_of_hex (hhex c1 (by simp))
      obtain ⟨h2, e2, _⟩ := hexDigitVal_some_of_hex (hhex c2 (by simp))
      simp only [pairsOf, List.flatMap_cons, List.map_cons]
      rw [e1, e2]
      simp only [Option.getD_some]
      rw [byteToHexUpper_pair e1 e2]
      rw [ih rest (by simp at hl; omega) (fun c hc => hhex c (by simp [hc]))]
      rfl

/-! ### Characterisation of the parse loop -/

theorem radix_le255 {bs : List Nat} {v : Nat} (e : fromStrRadix16u8 bs = some v) :
    v ≤ 255 := by
  cases bs with
  | nil => simp [fromStrRadix16u8] at e
  | cons b rest =>
    simp only [fromStrRadix16u8] at e
    by_cases hb : b = 43
    · rw [if_pos hb] at e
      by_cases hr : rest = []
      · rw [if_pos hr] at e; cases e
      · rw [if_neg hr] at e
        exact radix_bound 0 (by omega) e
    · rw [if_neg hb] at e
      exact radix_bound 0 (by omega) e

theorem rawPairsLoop_ok_bytes {s bs : List Nat} : ∀ (n i : Nat) (l : List Nat),
    rawPairsLoop s bs n i = Except.ok (some l) → l.length = n ∧ ∀ x ∈ l, x ≤ 255 := by
  intro n
  induction n with
  | zero =>
    intro i l e
    simp only [rawPairsLoop] at e
    injection e with e
    injection e with e
    subst e
    simp
  | succ m ih =>
    intro i l e
    simp only [rawPairsLoop] at e
    split at e
    · split at e
      · cases e
      · rename_i b hb
        split at e
        · cases e
        · cases e
        · rename_i rest hrest
          injection e with e
          injection e with e
          subst e
          obtain ⟨hlen, hbound⟩ := ih (i + 1) rest hrest
          refine ⟨by simp [hlen], ?_⟩
          intro x hx
          rcases List.mem_cons.mp hx with rfl | hx
          · exact radix_le255 hb
          · exact hbound x hx
    · cases e

theorem rawPairsLoop_success {s : List Nat} (hlen : s.length = 32)
    (hhex : ∀ c ∈ s, isAsciiHexdigitN c = true) :
    ∀ (n i : Nat), 2 * i + 2 * n ≤ 32 →
      rawPairsLoop s s n i = Except.ok (some (pairsOf ((s.drop (2 * i)).take (2 * n)))) := by
  have hA : ∀ c ∈ s, c < 128 := fun c hc => hex_lt128 (hhex c hc)
  intro n
  induction n with
  | zero =>
    intro i _
    simp [rawPairsLoop, pairsOf]
  | succ m ih =>
    intro i hle
    have hb1 : isCharBoundary s (2 * i) = true :=
      boundary_of_ascii hA (2 * i) (by omega)
    have hb2 : isCharBoundary s (2 * i + 2) = true :=
      boundary_of_ascii hA (2 * i + 2) (by omega)
    have hdl : (s.drop (2 * i)).length = 32 - 2 * i := by simp [hlen]
    rcases hrest : s.drop (2 * i) with _ | ⟨c1, _ | ⟨c2, rest2⟩⟩
    · rw [hrest] at hdl
      simp at hdl
      omega
    · rw [hrest] at hdl
      simp at hdl
      omega
    · have hm1 : c1 ∈ s := List.mem_of_mem_drop (hrest ▸ List.mem_cons_self c1 _)
      have hm2 : c2 ∈ s :=
        List.mem_of_mem_drop (hrest ▸ List.mem_cons_of_mem c1 (List.mem_cons_self c2 _))
      obtain ⟨h1, e1, _⟩ := hexDigitVal_some_of_hex (hhex c1 hm1)
      obtain ⟨h2, e2, _⟩ := hexDigitVal_some_of_hex (hhex c2 hm2)
      have hslice : (s.drop (2 * i)).take 2 = [c1, c2] := by rw [hrest]; rfl
      have hdrop2 : s.drop (2 * (i + 1)) = rest2 := by
        have h22 : s.drop (2 * (i + 1)) = (s.drop (2 * i)).drop 2 := by
          rw [List.drop_drop]
          congr 1
        rw [h22, hrest]
        rfl
      have htake : (c1 :: c2 :: rest2).take (2 * (m + 1)) = c1 :: c2 :: rest2.take (2 * m) := by
        have h21 : 2 * (m + 1) = 2 * m + 1 + 1 := by omega
        rw [h21, List.take_succ_cons, List.take_succ_cons]
      simp only [rawPairsLoop, hb1, hb2, Bool.and_self, if_pos]
      rw [hslice, radix_pair_hex e1 e2]
      rw [ih (i + 1) (by omega), hdrop2, htake]
      simp only [pairsOf, e1, e2, Option.getD_some]

theorem rawPairsLoop_ascii_char {s : List Nat} (hA : ∀ c ∈ s, c < 128) :
    ∀ (n i : Nat), 2 * i + 2 * n ≤ s.length →
      (∃ r, rawPairsLoop s s n i = Except.ok r) ∧
      (rawPairsLoop s s n i = Except.ok none ↔
        ∃ j, j < n ∧ fromStrRadix16u8 ((s.drop (2 * (i + j))).take 2) = none) := by
  intro n
  induction n with
  | zero =>
    intro i _
    refine ⟨⟨some [], rfl⟩, ?_⟩
    simp [rawPairsLoop]
  | succ m ih =>
    intro i hle
    have hb1 : isCharBoundary s (2 * i) = true :=
      boundary_of_ascii hA (2 * i) (by omega)
    have hb2 : isCharBoundary s (2 * i + 2) = true :=
      boundary_of_ascii hA (2 * i + 2) (by omega)
    simp only [rawPairsLoop, hb1, hb2, Bool.and_self, if_pos]
    cases hp : fromStrRadix16u8 ((s.drop (2 * i)).take 2) with
    | none =>
      refine ⟨⟨none, rfl⟩, ?_⟩
      constructor
      · intro _
        exact ⟨0, by omega, by simpa using hp⟩
      · intro _
        rfl
    | some b =>
      obtain ⟨⟨r', hr'⟩, hiff⟩ := ih (i + 1) (by omega)
      cases r' with
      | none =>
        rw [hr']
        refine ⟨⟨none, rfl⟩, ?_⟩
        constructor
        · intro _
          obtain ⟨j, hj, hpj⟩ := hiff.mp hr'
          refine ⟨j + 1, by omega, ?_⟩
          have : i + (j + 1) = i + 1 + j := by omega
          rw [this]
          exact hpj
        · intro _
          rfl
      | some rest =>
        rw [hr']
        refine ⟨⟨some (b :: rest), rfl⟩, ?_⟩
        constructor
        · intro h
          cases h
        · rintro ⟨j, hj, hpj⟩
          cases j with
          | zero =>
            simp only [Nat.add_zero] at hpj
            rw [hpj] at hp
            cases hp
          | succ j' =>
            have : i + (j' + 1) = i + 1 + j' := by omega
            rw [this] at hpj
            have := hiff.mpr ⟨j', by omega, hpj⟩
            rw [this] at hr'
            cases hr'

theorem rawHexToGuid_success {s : List Nat} (hlen : s.length = 32)
    (hhex : ∀ c ∈ s, isAsciiHexdigitN c = true) :
    rawHexToGuid s = Except.ok (some (reorder (pairsOf s))) := by
  have hA : ∀ c ∈ s, c < 128 := fun c hc => hex_lt128 (hhex c hc)
  have hu : utf8Len s = 32 := by rw [utf8Len_of_ascii hA, hlen]
  have henc : utf8Encode s = s := utf8Encode_of_ascii hA
  simp only [rawHexToGuid, hu, ne_eq, not_true_eq_false, if_false, henc]
  rw [rawPairsLoop_success hlen hhex 16 0 (by omega)]
  simp only [Nat.mul_zero, List.drop_zero]
  rw [List.take_of_length_le (by omega)]

theorem rawHexToGuid_ok_bytes {s g : List Nat}
    (e : rawHexToGuid s = Except.ok (some g)) : g.length = 16 ∧ ∀ x ∈ g, x ≤ 255 := by
  simp only [rawHexToGuid] at e
  split at e
  · cases e
  · split at e
    · cases e
    · cases e
    · rename_i bytes hbytes
      injection e with e
      injection e with e
      subst e
      obtain ⟨hlen, hbound⟩ := rawPairsLoop_ok_bytes 16 0 bytes hbytes
      constructor
      · simp [reorder, List.length_append, List.length_reverse, List.length_take,
          List.length_drop, hlen]
      · intro x hx
        simp only [reorder, List.mem_append, List.mem_reverse] at hx
        rcases hx with ((hx | hx) | hx) | hx
        · exact hbound x (List.mem_of_mem_take hx)
        · exact hbound x (List.mem_of_mem_drop (List.mem_of_mem_take hx))
        · exact hbound x (List.mem_of_mem_drop (List.mem_of_mem_take hx))
        · exact hbound x (List.mem_of_mem_drop hx)

/-! ### Trimming -/

theorem dropWhile_head_false {p : Nat → Bool} {l : List Nat} :
    ∀ x, (l.dropWhile p).head? = some x → p x = false := by
  intro x hx
  have h := List.head?_dropWhile_not p l
  rw [hx] at h
  exact h

theorem dropWhile_eq_self_of_head {p : Nat → Bool} {l : List Nat}
    (h : ∀ x, l.head? = some x → p x = false) : l.dropWhile p = l := by
  cases l with
  | nil => rfl
  | cons a t =>
    rw [List.dropWhile_cons, h a rfl]
    simp

theorem dropWhile_idem (p : Nat → Bool) (l : List Nat) :
    (l.dropWhile p).dropWhile p = l.dropWhile p :=
  dropWhile_eq_self_of_head fun x hx => dropWhile_head_false x hx

theorem rustTrim_idem (s : List Nat) : rustTrim (rustTrim s) = rustTrim s := by
  simp only [rustTrim]
  generalize hd : s.dropWhile isRustWhitespace = d
  generalize he : d.reverse.dropWhile isRustWhitespace = e
  have h1 : e.reverse.dropWhile isRustWhitespace = e.reverse := by
    apply dropWhile_eq_self_of_head
    intro x hx
    have hgl : e.getLast? = some x := by
      rw [List.getLast?_eq_head?_reverse]
      exact hx
    obtain ⟨t, ht⟩ : e <:+ d.reverse := he ▸ List.dropWhile_suffix isRustWhitespace
    have hgl2 : d.reverse.getLast? = some x := by
      rw [← ht, List.getLast?_append, hgl]
      rfl
    have hhead : d.head? = some x := by
      have h := hgl2
      rw [List.getLast?_eq_head?_reverse, List.reverse_reverse] at h
      exact h
    exact dropWhile_head_false x (by rw [hd]; exact hhead)
  rw [h1, List.reverse_reverse]
  have h2 : e.dropWhile isRustWhitespace = e := by
    rw [← he]
    exact dropWhile_idem _ _
  rw [h2]

/-! ### The classifier -/

theorem validation_guid_iff (s : List Nat) :
    inputTypeValidation s = strLit "Guid" ↔
      utf8Len (rustTrim s) = 36 ∧ (rustTrim s).count 45 = 4 := by
  simp only [inputTypeValidation]
  split_ifs with h1 h2
  · exact iff_of_true rfl h1
  · exact iff_of_false (by decide) h1
  · exact iff_of_false (by decide) h1

theorem validation_rawhex_iff (s : List Nat) :
    inputTypeValidation s = strLit "RawHex" ↔
      ¬(utf8Len (rustTrim s) = 36 ∧ (rustTrim s).count 45 = 4) ∧
      utf8Len (rustTrim s) = 32 ∧ (rustTrim s).all isAsciiHexdigitN = true := by
  simp only [inputTypeValidation]
  split_ifs with h1 h2
  · exact iff_of_false (by decide) fun hc => hc.1 h1
  · exact iff_of_true rfl ⟨h1, h2⟩
  · exact iff_of_false (by decide) fun hc => h2 hc.2

theorem validation_none_iff (s : List Nat) :
    inputTypeValidation s = strLit "None" ↔
      ¬(utf8Len (rustTrim s) = 36 ∧ (rustTrim s).count 45 = 4) ∧
      ¬(utf8Len (rustTrim s) = 32 ∧ (rustTrim s).all isAsciiHexdigitN = true) := by
  simp only [inputTypeValidation]
  split_ifs with h1 h2
  · exact iff_of_false (by decide) fun hc => hc.1 h1
  · exact iff_of_false (by decide) fun hc => hc.2 h2
  · exact iff_of_true rfl ⟨h1, h2⟩

theorem validation_total (s : List Nat) :
    inputTypeValidation s = strLit "Guid" ∨ inputTypeValidation s = strLit "RawHex" ∨
      inputTypeValidation s = strLit "None" := by
  simp only [inputTypeValidation]
  split_ifs
  · exact Or.inl rfl
  · exact Or.inr (Or.inl rfl)
  · exact Or.inr (Or.inr rfl)

/-! ### Lengths and character sets of the encoders -/

theorem reorder_length {u : List Nat} (h : u.length = 16) : (reorder u).length = 16 := by
  simp only [reorder, List.length_append, List.length_reverse, List.length_take,
    List.length_drop, h]
  omega

theorem hexPairs_spec : ∀ (l bs : List Nat), hexPairs bs = some l →
    2 * l.length = bs.length ∧ ∀ x ∈ l, x ≤ 255 := by
  intro l
  induction l with
  | nil =>
    intro bs e
    cases bs with
    | nil => simp
    | cons b1 t =>
      cases t with
      | nil => simp [hexPairs] at e
      | cons b2 rest =>
        simp only [hexPairs] at e
        split at e
        · simp at e
        · cases e
  | cons v t ih =>
    intro bs e
    cases bs with
    | nil => simp [hexPairs] at e
    | cons b1 t1 =>
      cases t1 with
      | nil => simp [hexPairs] at e
      | cons b2 rest =>
        cases e1 : hexDigitVal b1 with
        | none => simp [hexPairs, e1] at e
        | some h1 =>
          cases e2 : hexDigitVal b2 with
          | none => simp [hexPairs, e1, e2] at e
          | some h2 =>
            cases e3 : hexPairs rest with
            | none => simp [hexPairs, e1, e2, e3] at e
            | some t' =>
              simp only [hexPairs, e1, e2, e3] at e
              injection e with e
              injection e with ev et
              subst ev
              subst et
              obtain ⟨hl, hb⟩ := ih rest e3
              refine ⟨by simp; omega, ?_⟩
              intro x hx
              rcases List.mem_cons.mp hx with rfl | hx
              · have := hexDigitVal_lt e1
                have := hexDigitVal_lt e2
                omega
              · exact hb x hx

theorem parseHyphenated_bytes {bs u : List Nat} (e : parseHyphenated bs = some u) :
    u.length = 16 ∧ ∀ x ∈ u, x ≤ 255 := by
  simp only [parseHyphenated] at e
  split at e
  · rename_i hc
    obtain ⟨⟨h36, _⟩, hb⟩ := And.intro hc (hexPairs_spec u _ e)
    obtain ⟨hl, hbb⟩ := hb
    refine ⟨?_, hbb⟩
    simp only [List.length_append, List.length_take, List.length_drop, h36] at hl
    omega
  · cases e

theorem parseSimple_bytes {bs u : List Nat} (e : parseSimple bs = some u) :
    u.length = 16 ∧ ∀ x ∈ u, x ≤ 255 := by
  simp only [parseSimple] at e
  split at e
  · rename_i h32
    obtain ⟨hl, hb⟩ := hexPairs_spec u bs e
    exact ⟨by omega, hb⟩
  · cases e

theorem uuidParseStr_bytes {s u : List Nat} (e : uuidParseStr s = some u) :
    u.length = 16 ∧ ∀ x ∈ u, x ≤ 255 := by
  simp only [uuidParseStr] at e
  split_ifs at e
  · exact parseSimple_bytes e
  · exact parseHyphenated_bytes e
  · exact parseHyphenated_bytes e
  · exact parseHyphenated_bytes e

theorem flatMapUpper_length (l : List Nat) :
    (l.flatMap byteToHexUpper).length = 2 * l.length := by
  induction l with
  | nil => rfl
  | cons x t ih =>
    simp only [List.flatMap_cons, List.length_append, ih, byteToHexUpper, List.length_cons,
      List.length_nil]
    omega

theorem flatMapLower_length (l : List Nat) :
    (l.flatMap byteToHexLower).length = 2 * l.length := by
  induction l with
  | nil => rfl
  | cons x t ih =>
    simp only [List.flatMap_cons, List.length_append, ih, byteToHexLower, List.length_cons,
      List.length_nil]
    omega

theorem flatMapUpper_chars {l : List Nat} (hb : ∀ x ∈ l, x ≤ 255) :
    ∀ c ∈ l.flatMap byteToHexUpper, (48 ≤ c ∧ c ≤ 57) ∨ (65 ≤ c ∧ c ≤ 70) := by
  intro c hc
  rw [List.mem_flatMap] at hc
  obtain ⟨x, hx, hcx⟩ := hc
  have hx255 := hb x hx
  have hdiv : x / 16 ≤ 15 := by omega
  have hmod : x % 16 ≤ 15 := by omega
  simp only [byteToHexUpper, List.mem_cons, List.not_mem_nil, or_false] at hcx
  rcases hcx with rfl | rfl
  · split_ifs <;> omega
  · split_ifs <;> omega

theorem flatMapLower_chars {l : List Nat} (hb : ∀ x ∈ l, x ≤ 255) :
    ∀ c ∈ l.flatMap byteToHexLower, (48 ≤ c ∧ c ≤ 57) ∨ (97 ≤ c ∧ c ≤ 102) := by
  intro c hc
  rw [List.mem_flatMap] at hc
  obtain ⟨x, hx, hcx⟩ := hc
  have hx255 := hb x hx
  have hdiv : x / 16 ≤ 15 := by omega
  have hmod : x % 16 ≤ 15 := by omega
  simp only [byteToHexLower, List.mem_cons, List.not_mem_nil, or_false] at hcx
  rcases hcx with rfl | rfl
  · split_ifs <;> omega
  · split_ifs <;> omega

theorem guidToRawHex_length {u : List Nat} (h : u.length = 16) :
    (guidToRawHex u).length = 32 := by
  rw [guidToRawHex, flatMapUpper_length, reorder_length h]

theorem guidToRawHex_chars {u : List Nat} (hb : ∀ x ∈ u, x ≤ 255) :
    ∀ c ∈ guidToRawHex u, (48 ≤ c ∧ c ≤ 57) ∨ (65 ≤ c ∧ c ≤ 70) := by
  apply flatMapUpper_chars
  intro x hx
  simp only [reorder, List.mem_append, List.mem_reverse] at hx
  rcases hx with ((hx | hx) | hx) | hx
  · exact hb x (List.mem_of_mem_take hx)
  · exact hb x (List.mem_of_mem_drop (List.mem_of_mem_take hx))
  · exact hb x (List.mem_of_mem_drop (List.mem_of_mem_take hx))
  · exact hb x (List.mem_of_mem_drop hx)

theorem encodeHyphenated_length {u : List Nat} (h : u.length = 16) :
    (encodeHyphenated u).length = 36 := by
  simp only [encodeHyphenated, List.length_append, flatMapLower_length, List.length_take,
    List.length_drop, List.length_cons, List.length_nil, h]
  omega

theorem encodeHyphenated_chars {u : List Nat} (hb : ∀ x ∈ u, x ≤ 255) :
    ∀ c ∈ encodeHyphenated u, c = 45 ∨ (48 ≤ c ∧ c ≤ 57) ∨ (97 ≤ c ∧ c ≤ 102) := by
  intro c hc
  have hsub : ∀ (l : List Nat), (∀ x ∈ l, x ∈ u) →
      c ∈ l.flatMap byteToHexLower → (48 ≤ c ∧ c ≤ 57) ∨ (97 ≤ c ∧ c ≤ 102) :=
    fun l hl hcl => flatMapLower_chars (fun x hx => hb x (hl x hx)) c hcl
  simp only [encodeHyphenated, List.mem_append, List.mem_cons, List.not_mem_nil,
    or_false] at hc
  rcases hc with ((((((((hc | rfl) | hc) | rfl) | hc) | rfl) | hc) | rfl) | hc)
  · exact Or.inr (hsub _ (fun x hx => List.mem_of_mem_take hx) hc)
  · exact Or.inl rfl
  · exact Or.inr (hsub _ (fun x hx => List.mem_of_mem_drop (List.mem_of_mem_take hx)) hc)
  · exact Or.inl rfl
  · exact Or.inr (hsub _ (fun x hx => List.mem_of_mem_drop (List.mem_of_mem_take hx)) hc)
  · exact Or.inl rfl
  · exact Or.inr (hsub _ (fun x hx => List.mem_of_mem_drop (List.mem_of_mem_take hx)) hc)
  · exact Or.inl rfl
  · exact Or.inr (hsub _ (fun x hx => List.mem_of_mem_drop hx) hc)

/-! ### The dispatch of `submit_message` -/

theorem submitResultE_of_guid {s : List Nat}
    (hg : inputTypeValidation (rustTrim s) = strLit "Guid") :
    submitResultE s =
      match uuidParseStr (rustTrim s) with
      | some u => Except.ok (strLit "✅ Raw Hex: " ++ guidToRawHex u)
      | none => Except.ok (strLit "❌ Invalid GUID") := by
  simp only [submitResultE, hg]
  simp

theorem submitResultE_of_rawhex {s : List Nat}
    (hr : inputTypeValidation (rustTrim s) = strLit "RawHex") :
    submitResultE s =
      match rawHexToGuid (rustTrim s) with
      | Except.error e => Except.error e
      | Except.ok (some g) => Except.ok (strLit "✅ GUID: " ++ encodeHyphenated g)
      | Except.ok none => Except.ok (strLit "❌ Invalid Raw Hex.") := by
  have hne : strLit "RawHex" ≠ strLit "Guid" := by decide
  simp only [submitResultE, hr]
  rw [if_neg hne]
  simp

theorem submitResultE_of_none {s : List Nat}
    (hn : inputTypeValidation (rustTrim s) = strLit "None") :
    submitResultE s = Except.ok (strLit "❌ Invalid input. It's neither raw hex nor guid.") := by
  have hne1 : strLit "None" ≠ strLit "Guid" := by decide
  have hne2 : strLit "None" ≠ strLit "RawHex" := by decide
  simp only [submitResultE, hn]
  rw [if_neg hne1, if_neg hne2]

/-- Core of the unreachability of the raw-hex failure: on an input the
classifier tags `RawHex`, the decode succeeds, with the reorder of the
pairwise parsed bytes of the trimmed input. -/
theorem rawHex_classified_success {s : List Nat}
    (hr : inputTypeValidation s = strLit "RawHex") :
    rawHexToGuid (rustTrim s) = Except.ok (some (reorder (pairsOf (rustTrim s)))) := by
  obtain ⟨-, hlen, hall⟩ := (validation_rawhex_iff s).mp hr
  have hhex : ∀ c ∈ rustTrim s, isAsciiHexdigitN c = true := List.all_eq_true.mp hall
  have hA : ∀ c ∈ rustTrim s, c < 128 := fun c hc => hex_lt128 (hhex c hc)
  have hl : (rustTrim s).length = 32 := by rw [← utf8Len_of_ascii hA]; exact hlen
  exact rawHexToGuid_success hl hhex

theorem submitResultE_ok (s : List Nat) : ∃ r, submitResultE s = Except.ok r := by
  rcases validation_total (rustTrim s) with hg | hr | hn
  · rw [submitResultE_of_guid hg]
    cases uuidParseStr (rustTrim s) <;> exact ⟨_, rfl⟩
  · rw [submitResultE_of_rawhex hr]
    have hsucc := rawHex_classified_success hr
    rw [rustTrim_idem] at hsucc
    rw [hsucc]
    exact ⟨_, rfl⟩
  · rw [submitResultE_of_none hn]
    exact ⟨_, rfl⟩

/-! ### Exact failure condition of `raw_hex_to_guid` on ASCII input -/

theorem radix_slice_none_iff {s : List Nat} {i : Nat} (h32 : s.length = 32) (hi : i < 16) :
    fromStrRadix16u8 ((s.drop (2 * i)).take 2) = none ↔ ¬ specPairAccepted s i := by
  rw [drop_take_pair (2 * i) s (by omega)]
  exact radix_pair_none_iff

theorem rawHexToGuid_none_iff_ascii {s : List Nat} (hA : ∀ c ∈ s, c < 128) :
    rawHexToGuid s = Except.ok none ↔
      (s.length ≠ 32 ∨ ∃ i, i < 16 ∧ ¬ specPairAccepted s i) := by
  have hu : utf8Len s = s.length := utf8Len_of_ascii hA
  by_cases h32 : s.length = 32
  · have henc : utf8Encode s = s := utf8Encode_of_ascii hA
    obtain ⟨⟨r, hr⟩, hiff⟩ := rawPairsLoop_ascii_char hA 16 0 (by omega)
    have hne : ¬ utf8Len s ≠ 32 := by omega
    simp only [rawHexToGuid, if_neg hne, henc]
    cases r with
    | none =>
      rw [hr]
      obtain ⟨j, hj, hpj⟩ := hiff.mp hr
      rw [Nat.zero_add] at hpj
      refine iff_of_true rfl (Or.inr ⟨j, hj, ?_⟩)
      exact (radix_slice_none_iff h32 hj).mp hpj
    | some bytes =>
      rw [hr]
      refine iff_of_false (by simp) ?_
      rintro (hc | ⟨i, hi, hnp⟩)
      · exact hc h32
      · have hnone := (radix_slice_none_iff h32 hi).mpr hnp
        have := hiff.mpr ⟨i, hi, by rw [Nat.zero_add]; exact hnone⟩
        rw [this] at hr
        cases hr
  · have hne : utf8Len s ≠ 32 := by omega
    simp only [rawHexToGuid, if_pos hne]
    exact ⟨fun _ => Or.inl h32, fun _ => by trivial⟩

/-! ### The claims -/

/-- C2: for every input string the classifier returns exactly one of the
three tags; it returns `"Guid"` iff the trimmed string has (byte)
length 36 and exactly 4 hyphen characters, otherwise `"RawHex"` iff the
trimmed string has length 32 and every character is an ASCII hex digit,
otherwise `"None"`; it is total (it always produces one of the tags,
computed only from length and character-set checks). -/
theorem input_type_validation_spec (s : List Nat) :
    (inputTypeValidation s = strLit "Guid" ∨ inputTypeValidation s = strLit "RawHex" ∨
      inputTypeValidation s = strLit "None") ∧
    (inputTypeValidation s = strLit "Guid" ↔
      utf8Len (rustTrim s) = 36 ∧ (rustTrim s).count 45 = 4) ∧
    (inputTypeValidation s = strLit "RawHex" ↔
      ¬(utf8Len (rustTrim s) = 36 ∧ (rustTrim s).count 45 = 4) ∧
      utf8Len (rustTrim s) = 32 ∧ ∀ c ∈ rustTrim s, isAsciiHexdigitN c = true) ∧
    (inputTypeValidation s = strLit "None" ↔
      ¬(utf8Len (rustTrim s) = 36 ∧ (rustTrim s).count 45 = 4) ∧
      ¬(utf8Len (rustTrim s) = 32 ∧ ∀ c ∈ rustTrim s, isAsciiHexdigitN c = true)) := by
  have hall : ((rustTrim s).all isAsciiHexdigitN = true) ↔
      ∀ c ∈ rustTrim s, isAsciiHexdigitN c = true := by
    rw [List.all_eq_true]
  refine ⟨validation_total s, validation_guid_iff s, ?_, ?_⟩
  · rw [validation_rawhex_iff s, hall]
  · rw [validation_none_iff s, hall]

/-- Witness for C2: a 32-character all-hex string is classified
`RawHex`. -/
theorem input_type_validation_spec_witness :
    inputTypeValidation (strLit "0123456789abcdef0123456789ABCDEF") = strLit "RawHex" :=
  ((input_type_validation_spec (strLit "0123456789abcdef0123456789ABCDEF")).2.2.1).mpr
    ⟨by decide, by decide, by decide⟩

/-- C3: for every valid raw-hex string (32 ASCII hex digit characters)
the decode succeeds and re-encoding the decoded identifier yields the
uppercase form of the input. -/
theorem raw_hex_round_trip (s : List Nat) (hlen : s.length = 32)
    (hhex : ∀ c ∈ s, isAsciiHexdigitN c = true) :
    ∃ u, rawHexToGuid s = Except.ok (some u) ∧ guidToRawHex u = s.map asciiToUpper := by
  refine ⟨reorder (pairsOf s), rawHexToGuid_success hlen hhex, ?_⟩
  have hp16 : (pairsOf s).length = 16 := pairsOf_length 16 s (by omega)
  rw [guidToRawHex, reorder_reorder_eq _ hp16]
  exact pairsOf_flatMap_upper 16 s (by omega) hhex

/-- Witness for C3 at a concrete mixed-case raw-hex string. -/
theorem raw_hex_round_trip_witness :
    ∃ u, rawHexToGuid (strLit "00112233445566778899aabbccddeeff") = Except.ok (some u) ∧
      guidToRawHex u = (strLit "00112233445566778899aabbccddeeff").map asciiToUpper :=
  raw_hex_round_trip _ (by decide) (by decide)

/-- Counterexample to C4 as stated: on `plusInput` the length is 32 and
pair 0 is not valid hexadecimal (two hex digits), so the claim predicts
`None`; but the decode succeeds (with the all-zero identifier). -/
theorem raw_hex_failure_counterexample :
    ¬ (rawHexToGuid plusInput = Except.ok none ↔
        (plusInput.length ≠ 32 ∨ ∃ i, i < 16 ∧
          ¬(isAsciiHexdigitN (plusInput.getD (2 * i) 0) = true ∧
            isAsciiHexdigitN (plusInput.getD (2 * i + 1) 0) = true))) := by
  intro h
  have h1 : rawHexToGuid plusInput = Except.ok none :=
    h.mpr (Or.inr ⟨0, by decide, by decide⟩)
  have h2 : rawHexToGuid plusInput = Except.ok (some (List.replicate 16 0)) := rfl
  rw [h2] at h1
  simp at h1

/-- C4 (amended): on ASCII input, `raw_hex_to_guid` returns `None`
exactly when the length is not 32 or some adjacent two-character pair
is rejected by `u8::from_str_radix(_, 16)` — which accepts two hex
digits, and also a `+` sign followed by one hex digit; it never
partially commits.  (On non-ASCII input of byte length 32 the function
can panic at a byte slice instead of returning.) -/
theorem raw_hex_failure_amended (s : List Nat) (hA : ∀ c ∈ s, c < 128) :
    rawHexToGuid s = Except.ok none ↔
      (s.length ≠ 32 ∨ ∃ i, i < 16 ∧ ¬ specPairAccepted s i) :=
  rawHexToGuid_none_iff_ascii hA

/-- Witness for the amended C4 at the concrete input `plusInput`. -/
theorem raw_hex_failure_amended_witness :
    (∀ c ∈ plusInput, c < 128) ∧
    (rawHexToGuid plusInput = Except.ok none ↔
      (plusInput.length ≠ 32 ∨ ∃ i, i < 16 ∧ ¬ specPairAccepted plusInput i)) :=
  ⟨by decide, raw_hex_failure_amended plusInput (by decide)⟩

/-- C5 (code bug): `raw_hex_to_guid` is not safe on arbitrary non-ASCII
input: `panicInput` has byte length 32, so it passes the length check,
but the byte slice `&hex[0..2]` ends inside the two-byte character `é`
and panics (modelled as `Except.error ()`), instead of returning an
explicit `Some`/`None` outcome. -/
theorem raw_hex_panic_on_non_ascii :
    utf8Len panicInput = 32 ∧ rawHexToGuid panicInput = Except.error () :=
  ⟨by decide, rfl⟩

/-- C6: dispatch of `submit_message` on the trimmed input: under the
`Guid` tag, a successful canonical parse reports `✅ Raw Hex: ` followed
by the 32-character uppercase hex encoding and a failed parse reports
the fixed invalid-GUID string; under the `RawHex` tag, a successful
decode reports `✅ GUID: ` followed by the 36-character lowercase
hyphenated form and a failed decode reports the fixed invalid-raw-hex
string; under any other tag the fixed neither-form string is
reported. -/
theorem submit_dispatch_spec (s : List Nat) :
    (inputTypeValidation (rustTrim s) = strLit "Guid" →
      (∀ u, uuidParseStr (rustTrim s) = some u →
        submitResultE s = Except.ok (strLit "✅ Raw Hex: " ++ guidToRawHex u) ∧
        (guidToRawHex u).length = 32 ∧
        (∀ c ∈ guidToRawHex u, (48 ≤ c ∧ c ≤ 57) ∨ (65 ≤ c ∧ c ≤ 70))) ∧
      (uuidParseStr (rustTrim s) = none →
        submitResultE s = Except.ok (strLit "❌ Invalid GUID"))) ∧
    (inputTypeValidation (rustTrim s) = strLit "RawHex" →
      (∀ g, rawHexToGuid (rustTrim s) = Except.ok (some g) →
        submitResultE s = Except.ok (strLit "✅ GUID: " ++ encodeHyphenated g) ∧
        (encodeHyphenated g).length = 36 ∧
        (∀ c ∈ encodeHyphenated g, c = 45 ∨ (48 ≤ c ∧ c ≤ 57) ∨ (97 ≤ c ∧ c ≤ 102))) ∧
      (rawHexToGuid (rustTrim s) = Except.ok none →
        submitResultE s = Except.ok (strLit "❌ Invalid Raw Hex."))) ∧
    (inputTypeValidation (rustTrim s) ≠ strLit "Guid" →
      inputTypeValidation (rustTrim s) ≠ strLit "RawHex" →
      submitResultE s = Except.ok (strLit "❌ Invalid input. It's neither raw hex nor guid.")) := by
  refine ⟨fun hg => ⟨fun u hu => ?_, fun hn => ?_⟩,
    fun hr => ⟨fun g hgk => ?_, fun hn => ?_⟩, fun h1 h2 => ?_⟩
  · rw [submitResultE_of_guid hg, hu]
    obtain ⟨hl, hb⟩ := uuidParseStr_bytes hu
    exact ⟨rfl, guidToRawHex_length hl, guidToRawHex_chars hb⟩
  · rw [submitResultE_of_guid hg, hn]
  · rw [submitResultE_of_rawhex hr, hgk]
    obtain ⟨hl, hb⟩ := rawHexToGuid_ok_bytes hgk
    exact ⟨rfl, encodeHyphenated_length hl, encodeHyphenated_chars hb⟩
  · rw [submitResultE_of_rawhex hr, hn]
  · rcases validation_total (rustTrim s) with h | h | h
    · exact absurd h h1
    · exact absurd h h2
    · exact submitResultE_of_none h

/-- Witness for C6: the all-zero canonical input takes the `Guid`
branch and reports the uppercase raw-hex encoding. -/
theorem submit_dispatch_spec_witness :
    submitResultE guidZeroInput =
      Except.ok (strLit "✅ Raw Hex: " ++ guidToRawHex (List.replicate 16 0)) ∧
    (guidToRawHex (List.replicate 16 0)).length = 32 ∧
    (∀ c ∈ guidToRawHex (List.replicate 16 0), (48 ≤ c ∧ c ≤ 57) ∨ (65 ≤ c ∧ c ≤ 70)) :=
  ((submit_dispatch_spec guidZeroInput).1 (by decide)).1 (List.replicate 16 0) (by decide)

/-- C7: the `MalformedRawHex` failure is unreachable through dispatch:
whenever the classifier answers `RawHex` (trimmed length 32, all
characters ASCII hex digits), the decode of the trimmed input succeeds
with some identifier — its `None` branch is never taken (and it does
not panic either). -/
theorem raw_hex_decode_succeeds_when_classified (s : List Nat)
    (hr : inputTypeValidation s = strLit "RawHex") :
    ∃ g, rawHexToGuid (rustTrim s) = Except.ok (some g) :=
  ⟨reorder (pairsOf (rustTrim s)), rawHex_classified_success hr⟩

/-- Witness for C7 at a concrete all-hex input. -/
theorem raw_hex_decode_succeeds_when_classified_witness :
    ∃ g, rawHexToGuid (rustTrim (strLit "ffffffffffffffffffffffffffffffff")) =
      Except.ok (some g) :=
  raw_hex_decode_succeeds_when_classified _ (by decide)

/-- C8: the concrete case: `01020304-0506-0708-0910-111213141516`
decodes to the natural bytes 01..16, the reorder yields
`[04,03,02,01, 06,05, 08,07, 09,10,11,12,13,14,15,16]`, the raw-hex
encoding is the 32-character uppercase string
`04030201060508070910111213141516`, and the whole dispatch reports
exactly that string. -/
theorem canonical_concrete_case :
    uuidParseStr canonicalConcrete =
      some [1, 2, 3, 4, 5, 6, 7, 8, 9, 16, 17, 18, 19, 20, 21, 22] ∧
    reorder [1, 2, 3, 4, 5, 6, 7, 8, 9, 16, 17, 18, 19, 20, 21, 22] =
      [4, 3, 2, 1, 6, 5, 8, 7, 9, 16, 17, 18, 19, 20, 21, 22] ∧
    guidToRawHex [1, 2, 3, 4, 5, 6, 7, 8, 9, 16, 17, 18, 19, 20, 21, 22] =
      strLit "04030201060508070910111213141516" ∧
    submitResultE canonicalConcrete =
      Except.ok (strLit "✅ Raw Hex: 04030201060508070910111213141516") :=
  ⟨by decide, by decide, by decide, rfl⟩

/-- C9: frame effect of `submit_message`: on every branch it returns a
state with exactly one message appended to the history, an empty input,
cursor index 0 and an unchanged input mode. -/
theorem submit_frame_effect (a : App) :
    ∃ r, submitMessage a =
      Except.ok { input := [], character_index := 0, input_mode := a.input_mode,
                  messages := a.messages ++ [r] } := by
  obtain ⟨r, hr⟩ := submitResultE_ok a.input
  refine ⟨r, ?_⟩
  simp [submitMessage, hr]

/-- C10: the cursor invariant `character_index ≤ input.length` holds in
the initial state and is preserved by every editing operation and by
`submit_message`. -/
theorem cursor_index_invariant :
    App.new.character_index ≤ App.new.input.length ∧
    (∀ a c, a.character_index ≤ a.input.length →
      (enterChar a c).character_index ≤ (enterChar a c).input.length) ∧
    (∀ a, a.character_index ≤ a.input.length →
      (deleteChar a).character_index ≤ (deleteChar a).input.length) ∧
    (∀ a, a.character_index ≤ a.input.length →
      (moveCursorLeft a).character_index ≤ (moveCursorLeft a).input.length) ∧
    (∀ a, a.character_index ≤ a.input.length →
      (moveCursorRight a).character_index ≤ (moveCursorRight a).input.length) ∧
    (∀ a a', a.character_index ≤ a.input.length → submitMessage a = Except.ok a' →
      a'.character_index ≤ a'.input.length) := by
  refine ⟨Nat.le_refl 0, fun a c _ => Nat.min_le_right _ _, fun a ha => ?_,
    fun a _ => Nat.min_le_right _ _, fun a _ => Nat.min_le_right _ _, fun a a' _ h => ?_⟩
  · by_cases hz : a.character_index ≠ 0
    · simp only [deleteChar, if_pos hz, moveCursorLeft, clampCursor]
      exact Nat.min_le_right _ _
    · simp only [deleteChar, if_neg hz]
      exact ha
  · cases hsr : submitResultE a.input with
    | error e => simp [submitMessage, hsr] at h
    | ok r =>
      simp only [submitMessage, hsr] at h
      injection h with h
      subst h
      simp

/-- Witness for C10: the preservation step for `enter_char` at a
concrete state. -/
theorem cursor_index_invariant_witness :
    (enterChar sampleApp 98).character_index ≤ (enterChar sampleApp 98).input.length :=
  cursor_index_invariant.2.1 sampleApp 98 (by decide)
